import Mathlib

/-!
Verification development for the pg_textsearch demo repository.

The repository's API routes tokenize the query string, issue SQL whose
semantics is BM25 scoring (via the pg_textsearch extension's distance
operator) and weighted Reciprocal Rank Fusion, and post-process the rows.
This file embeds those routes shallowly: the JavaScript string pipeline
becomes list processing over characters, the SQL queries become list
transformations (filter / sort / take), and the scoring formulas delegated
to the database extension are modelled from the specification's formulas.
-/

namespace PgDemo

/-! ## Tokenizer

The routes compute query terms as
`searchQuery.toLowerCase().split(/\s+/).filter(t => t.length >= 2)`.
A JavaScript split on the regex `\s+` cuts the string at every maximal run
of whitespace characters; the pieces that would be empty (a leading piece
when the string starts with whitespace, or a trailing one) are removed by
the length filter, so the embedding below produces only the nonempty runs.
-/

/-- The maximal runs of characters on which `sep` is false, in order:
the nonempty pieces of a JavaScript split on a regex matching one or more
`sep` characters. -/
def tokenRuns (sep : Char → Bool) : List Char → List (List Char)
  | [] => []
  | c :: cs =>
    if sep c then tokenRuns sep cs
    else (c :: cs.takeWhile (fun x => !sep x)) :: tokenRuns sep (cs.dropWhile (fun x => !sep x))
termination_by l => l.length
decreasing_by
  · simp only [List.length_cons]
    omega
  · have h := (List.dropWhile_sublist (l := cs) (fun x => !sep x)).length_le
    simp only [List.length_cons]
    omega

/-- The routes' query tokenization on character lists:
lowercase, split on runs of whitespace, keep tokens of length at least 2.
Embeds `searchQuery.toLowerCase().split(/\s+/).filter(t => t.length >= 2)`
(part_004 line 36, part_004 line 220, native route line 18). -/
def tokenizeL (s : List Char) : List (List Char) :=
  (tokenRuns (fun c => c.isWhitespace) (s.map Char.toLower)).filter (fun t => 2 ≤ t.length)

/-- The routes' query tokenization, on strings. -/
def tokenize (s : String) : List String :=
  (tokenizeL s.data).map List.asString

/-- Modelled from the spec: a tokenizer following the specification's own
words — "Lowercases input, splits on runs of non-alphanumeric characters,
discards empty tokens and tokens shorter than a configurable minimum
length (default 2)". Used to compare the specified splitting rule with the
routes' actual whitespace splitting. -/
def specTokenizeL (s : List Char) : List (List Char) :=
  (tokenRuns (fun c => !c.isAlphanum) (s.map Char.toLower)).filter (fun t => 2 ≤ t.length)

/-! Agreement between run-based splitting and per-character splitting:
`tokenRuns` returns exactly the nonempty pieces of `List.splitOnP`. -/

theorem tokenRuns_nil (sep : Char → Bool) : tokenRuns sep [] = [] := by
  simp [tokenRuns]

theorem tokenRuns_cons_sep (sep : Char → Bool) (c : Char) (cs : List Char)
    (h : sep c = true) : tokenRuns sep (c :: cs) = tokenRuns sep cs := by
  rw [tokenRuns, if_pos h]

theorem tokenRuns_cons_keep (sep : Char → Bool) (c : Char) (cs : List Char)
    (h : sep c = false) :
    tokenRuns sep (c :: cs) =
      (c :: cs.takeWhile (fun x => !sep x)) :: tokenRuns sep (cs.dropWhile (fun x => !sep x)) := by
  rw [tokenRuns, if_neg (by simp [h])]

theorem filter_splitOnP_eq_tokenRuns (sep : Char → Bool) (l : List Char) :
    (l.splitOnP sep).filter (fun t => !t.isEmpty) = tokenRuns sep l := by
  have main : ∀ n (l : List Char), l.length ≤ n →
      (l.splitOnP sep).filter (fun t => !t.isEmpty) = tokenRuns sep l := by
    intro n
    induction n with
    | zero =>
      intro l hl
      have : l = [] := List.eq_nil_of_length_eq_zero (Nat.le_zero.mp hl)
      subst this
      simp [List.splitOnP_nil, tokenRuns_nil]
    | succ n ih =>
      intro l hl
      match l with
      | [] => simp [List.splitOnP_nil, tokenRuns_nil]
      | c :: cs =>
        have hcs : cs.length ≤ n := by
          simp only [List.length_cons] at hl
          omega
        by_cases hc : sep c = true
        · rw [List.splitOnP_cons, if_pos hc, tokenRuns_cons_sep sep c cs hc]
          rw [List.filter_cons]
          simp only [List.isEmpty_nil, Bool.not_true, Bool.false_eq_true, if_false]
          exact ih cs hcs
        · have hc' : sep c = false := by simpa using hc
          rw [List.splitOnP_cons, if_neg (by simp [hc']), tokenRuns_cons_keep sep c cs hc']
          rcases hdw : cs.dropWhile (fun x => !sep x) with _ | ⟨d, ds⟩
          · -- every character of cs fails sep
            have htw : cs.takeWhile (fun x => !sep x) = cs := by
              have h2 := List.takeWhile_append_dropWhile (fun x => !sep x) cs
              rw [hdw, List.append_nil] at h2
              exact h2
            have hall : ∀ x ∈ cs, ¬ sep x = true := by
              intro x hx
              have hx' : x ∈ cs.takeWhile (fun x => !sep x) := by rw [htw]; exact hx
              have h3 := List.mem_takeWhile_imp hx'
              simpa using h3
            rw [List.splitOnP_eq_single _ _ hall, List.modifyHead_cons, htw, tokenRuns_nil]
            simp [List.filter_cons]
          · -- cs = takeWhile ++ d :: ds with sep d
            have hne : cs.dropWhile (fun x => !sep x) ≠ [] := by
              rw [hdw]
              exact List.cons_ne_nil d ds
            have hsepd : sep d = true := by
              have hd := List.head_dropWhile_not (fun x => !sep x) cs hne
              have hheadeq : (cs.dropWhile (fun x => !sep x)).head hne = d := by
                simp [hdw]
              rw [hheadeq] at hd
              simpa using hd
            have hfirst : ∀ x ∈ cs.takeWhile (fun x => !sep x), ¬ sep x = true := by
              intro x hx
              have h3 := List.mem_takeWhile_imp hx
              simpa using h3
            have hdecomp : cs = cs.takeWhile (fun x => !sep x) ++ d :: ds := by
              have h2 := List.takeWhile_append_dropWhile (fun x => !sep x) cs
              rw [hdw] at h2
              exact h2.symm
            have hds : ds.length ≤ n := by
              have hsub : (d :: ds).Sublist cs := by
                rw [← hdw]
                exact List.dropWhile_sublist _
              have h4 := hsub.length_le
              simp only [List.length_cons] at h4
              omega
            conv_lhs => rw [hdecomp, List.splitOnP_first _ _ hfirst d hsepd ds]
            rw [List.modifyHead_cons, List.filter_cons]
            simp only [List.isEmpty_cons, Bool.not_false, if_true]
            rw [tokenRuns_cons_sep sep d ds hsepd]
            exact congrArg _ (ih ds hds)
  exact main l.length l le_rfl

theorem filter_length_splitOnP (sep : Char → Bool) (l : List Char) :
    (l.splitOnP sep).filter (fun t => 2 ≤ t.length) =
      (tokenRuns sep l).filter (fun t => 2 ≤ t.length) := by
  rw [← filter_splitOnP_eq_tokenRuns, List.filter_filter]
  apply List.filter_congr
  intro t _
  match t with
  | [] => simp
  | c :: cs => simp

/-! ## Corpus model and BM25 scorer

The demo delegates BM25 scoring to the pg_textsearch extension: the bm25
route's SQL applies the extension's distance operator and the repository
contains no implementation of the formula. The scorer below is therefore
modelled from the specification's formula (spec section 4.3), over an
explicit corpus of (document id, indexed term sequence) pairs.
-/

/-- A document: stable id and the term sequence of its indexed full text. -/
abbrev Doc := Nat × List String

/-- A corpus: the documents table. -/
abbrev Corpus := List Doc

/-- Term frequency f(t, D): occurrences of term t in document D. -/
def tf (t : String) (d : Doc) : ℕ := d.2.count t

/-- Document length |D| in terms. -/
def docLen (d : Doc) : ℕ := d.2.length

/-- Corpus document count N. -/
def docCount (c : Corpus) : ℕ := c.length

/-- Document frequency n(t): number of documents containing t at least once. -/
def docFreq (c : Corpus) (t : String) : ℕ :=
  (c.filter (fun d => decide (0 < tf t d))).length

/-- Total corpus length in terms. -/
def totalLen (c : Corpus) : ℕ := (c.map docLen).sum

/-- Average document length avgdl; 0 on an empty corpus (division by zero). -/
noncomputable def avgdl (c : Corpus) : ℝ := (totalLen c : ℝ) / (docCount c : ℝ)

/-- BM25 saturation parameter, the demo's fixed default (part_004 line 44). -/
noncomputable def k1 : ℝ := 1.2

/-- BM25 length-normalization parameter, the demo's fixed default (part_004 line 45). -/
noncomputable def b : ℝ := 0.75

/-- Modelled from the spec: the scorer's inverse document frequency,
IDF(t) = ln((N - n(t) + 0.5) / (n(t) + 0.5) + 1). The implementation is the
pg_textsearch extension, absent from the repository. -/
noncomputable def idf (N n : ℕ) : ℝ :=
  Real.log (((N : ℝ) - (n : ℝ) + 0.5) / ((n : ℝ) + 0.5) + 1)

/-- Modelled from the spec: a single query term's BM25 contribution,
IDF(t) * f(t,D) * (k1+1) / (f(t,D) + k1 * (1 - b + b * |D| / avgdl)). -/
noncomputable def termScore (c : Corpus) (t : String) (d : Doc) : ℝ :=
  idf (docCount c) (docFreq c t) *
    ((tf t d : ℝ) * (k1 + 1) /
      ((tf t d : ℝ) + k1 * (1 - b + b * (docLen d : ℝ) / avgdl c)))

/-- Modelled from the spec: BM25 score of document D for query Q,
the sum of the per-term contributions. -/
noncomputable def score (c : Corpus) (q : List String) (d : Doc) : ℝ :=
  (q.map (fun t => termScore c t d)).sum

/-! ## The bm25 route's term-statistics helper (part_004 lines 5-20) -/

/-- The document count the helper hard-codes (part_004 line 14). -/
def totalDocs : ℕ := 10

/-- The idf value computed by getTermStats for a term of the given document
frequency (part_004 line 15):
`docFreq === 0 ? 'N/A' : Math.log((totalDocs - docFreq + 0.5) / (docFreq + 0.5) + 1)`.
`none` embeds the string N/A reported when the frequency is zero; the
route additionally renders the number with toFixed(2) for display, which
does not change the computed value embedded here. -/
noncomputable def getTermStatsIdf (docFreq : ℕ) : Option ℝ :=
  if docFreq = 0 then none
  else some (Real.log (((totalDocs : ℝ) - (docFreq : ℝ) + 0.5) / ((docFreq : ℝ) + 0.5) + 1))

/-- C1: for every document frequency between 1 and the corpus size N = 10,
the IDF computed by getTermStats equals the scorer's reference definition
ln((N - n + 0.5) / (n + 0.5) + 1) exactly. -/
theorem getTermStats_idf_matches_reference (n : ℕ) (h1 : 1 ≤ n) (h2 : n ≤ totalDocs) :
    getTermStatsIdf n = some (idf totalDocs n) := by
  have hne : n ≠ 0 := by omega
  rw [getTermStatsIdf, if_neg hne]
  rfl

/-- Witness for C1 at document frequency 3. -/
theorem getTermStats_idf_matches_reference_witness :
    1 ≤ 3 ∧ 3 ≤ totalDocs ∧ getTermStatsIdf 3 = some (idf totalDocs 3) :=
  ⟨by decide, by decide, getTermStats_idf_matches_reference 3 (by decide) (by decide)⟩

/-! ## Result ordering

The SQL orders rows by BM25 distance ascending, i.e. by reported score
descending; the specification fixes ascending document id as the
deterministic tie-break (spec sections 4.3 and 9). -/

/-- Comparison used to sort ranked results: higher score first, equal
scores by ascending document id. -/
noncomputable def rankLE (a b : Nat × ℝ) : Bool :=
  decide (b.2 < a.2 ∨ (a.2 = b.2 ∧ a.1 ≤ b.1))

theorem rankLE_iff (a b : Nat × ℝ) :
    rankLE a b = true ↔ (b.2 < a.2 ∨ (a.2 = b.2 ∧ a.1 ≤ b.1)) := by
  simp [rankLE]

theorem rankLE_trans (a b c : Nat × ℝ) (hab : rankLE a b = true) (hbc : rankLE b c = true) :
    rankLE a c = true := by
  rw [rankLE_iff] at hab hbc ⊢
  rcases hab with h1 | ⟨h1, h1'⟩
  · rcases hbc with h2 | ⟨h2, h2'⟩
    · exact Or.inl (lt_trans h2 h1)
    · exact Or.inl (h2 ▸ h1)
  · rcases hbc with h2 | ⟨h2, h2'⟩
    · exact Or.inl (h1 ▸ h2)
    · exact Or.inr ⟨h1.trans h2, h1'.trans h2'⟩

theorem rankLE_total (a b : Nat × ℝ) : (rankLE a b || rankLE b a) = true := by
  rcases lt_trichotomy a.2 b.2 with h | h | h
  · have : rankLE b a = true := (rankLE_iff b a).mpr (Or.inl h)
    simp [this]
  · rcases Nat.le_total a.1 b.1 with h' | h'
    · have : rankLE a b = true := (rankLE_iff a b).mpr (Or.inr ⟨h, h'⟩)
      simp [this]
    · have : rankLE b a = true := (rankLE_iff b a).mpr (Or.inr ⟨h.symm, h'⟩)
      simp [this]
  · have : rankLE a b = true := (rankLE_iff a b).mpr (Or.inl h)
    simp [this]

/-- The result ordering as a relation, for sortedness statements. -/
def rankRel (a b : Nat × ℝ) : Prop := rankLE a b = true

instance : IsAntisymm (Nat × ℝ) rankRel := by
  constructor
  intro a b hab hba
  rw [rankRel, rankLE_iff] at hab hba
  rcases hab with h1 | ⟨h1, h1'⟩
  · rcases hba with h2 | ⟨h2, h2'⟩
    · exact absurd (lt_trans h1 h2) (lt_irrefl _)
    · exact absurd (h2 ▸ h1) (lt_irrefl _)
  · rcases hba with h2 | ⟨h2, h2'⟩
    · exact absurd (h1 ▸ h2) (lt_irrefl _)
    · exact Prod.ext (Nat.le_antisymm h1' h2') h1

/-! ## Batch scoring -/

/-- Modelled from the spec: the scorer's batch form, covering every
document that contains at least one query term. Mirrors the bm25 route's
SQL (part_004 lines 55-79): score each row, keep rows whose BM25 distance
is negative (equivalently, whose score is positive), order by score
descending with the specification's tie-break. -/
noncomputable def scoreAll (c : Corpus) (q : List String) : List (Nat × ℝ) :=
  ((c.map (fun d => (d.1, score c q d))).filter (fun r => decide (0 < r.2))).mergeSort rankLE

/-! Positivity facts about the modelled scorer. -/

theorem docFreq_le_docCount (c : Corpus) (t : String) : docFreq c t ≤ docCount c :=
  List.length_filter_le _ _

theorem idf_pos (N n : ℕ) (h : n ≤ N) : 0 < idf N n := by
  apply Real.log_pos
  have hnum : (0 : ℝ) < (N : ℝ) - (n : ℝ) + 0.5 := by
    have : (n : ℝ) ≤ (N : ℝ) := Nat.cast_le.mpr h
    linarith
  have hden : (0 : ℝ) < (n : ℝ) + 0.5 := by positivity
  have : (0 : ℝ) < ((N : ℝ) - (n : ℝ) + 0.5) / ((n : ℝ) + 0.5) := div_pos hnum hden
  linarith

theorem avgdl_nonneg (c : Corpus) : 0 ≤ avgdl c := by
  rw [avgdl]
  positivity

theorem denom_pos (c : Corpus) (t : String) (d : Doc) :
    0 < (tf t d : ℝ) + k1 * (1 - b + b * (docLen d : ℝ) / avgdl c) := by
  have h1 : (0 : ℝ) ≤ (tf t d : ℝ) := Nat.cast_nonneg _
  have h2 : (0 : ℝ) ≤ b * (docLen d : ℝ) / avgdl c := by
    have := avgdl_nonneg c
    rw [b]
    positivity
  rw [k1, b] at *
  nlinarith

theorem termScore_nonneg (c : Corpus) (t : String) (d : Doc) : 0 ≤ termScore c t d := by
  rw [termScore]
  have hidf : 0 < idf (docCount c) (docFreq c t) := idf_pos _ _ (docFreq_le_docCount c t)
  have hden := denom_pos c t d
  have hnum : (0 : ℝ) ≤ (tf t d : ℝ) * (k1 + 1) := by
    rw [k1]
    positivity
  exact mul_nonneg hidf.le (div_nonneg hnum hden.le)

theorem termScore_pos (c : Corpus) (t : String) (d : Doc) (ht : 0 < tf t d) :
    0 < termScore c t d := by
  rw [termScore]
  have hidf : 0 < idf (docCount c) (docFreq c t) := idf_pos _ _ (docFreq_le_docCount c t)
  have hden := denom_pos c t d
  have htR : (0 : ℝ) < (tf t d : ℝ) := by exact_mod_cast ht
  have hnum : (0 : ℝ) < (tf t d : ℝ) * (k1 + 1) := by
    rw [k1]
    nlinarith
  exact mul_pos hidf (div_pos hnum hden)

theorem termScore_eq_zero (c : Corpus) (t : String) (d : Doc) (ht : tf t d = 0) :
    termScore c t d = 0 := by
  rw [termScore, ht]
  simp

theorem score_nonneg (c : Corpus) (q : List String) (d : Doc) : 0 ≤ score c q d := by
  rw [score]
  apply List.sum_nonneg
  intro x hx
  rcases List.mem_map.mp hx with ⟨t, _, rfl⟩
  exact termScore_nonneg c t d

theorem score_pos_iff (c : Corpus) (q : List String) (d : Doc) :
    0 < score c q d ↔ ∃ t ∈ q, 0 < tf t d := by
  constructor
  · intro h
    by_contra hno
    push_neg at hno
    have hz : score c q d = 0 := by
      rw [score]
      apply List.sum_eq_zero
      intro x hx
      rcases List.mem_map.mp hx with ⟨t, ht, rfl⟩
      exact termScore_eq_zero c t d (Nat.le_zero.mp (hno t ht))
    rw [hz] at h
    exact lt_irrefl _ h
  · rintro ⟨t, htq, ht⟩
    have hmem : termScore c t d ∈ q.map (fun t => termScore c t d) :=
      List.mem_map_of_mem _ htq
    have hle : termScore c t d ≤ score c q d := by
      rw [score]
      apply List.single_le_sum _ _ hmem
      intro x hx
      rcases List.mem_map.mp hx with ⟨u, _, rfl⟩
      exact termScore_nonneg c u d
    exact lt_of_lt_of_le (termScore_pos c t d ht) hle

/-- C3: a document's (id, score) row appears in scoreAll's output exactly
when the document contains at least one query term; documents matching no
query term never appear. -/
theorem scoreAll_mem_iff (c : Corpus) (q : List String) (d : Doc) (hd : d ∈ c) :
    (d.1, score c q d) ∈ scoreAll c q ↔ ∃ t ∈ q, 0 < tf t d := by
  rw [scoreAll, List.mem_mergeSort, List.mem_filter]
  constructor
  · rintro ⟨-, hpos⟩
    exact (score_pos_iff c q d).mp (by simpa using hpos)
  · intro hmatch
    refine ⟨List.mem_map_of_mem _ hd, ?_⟩
    simpa using (score_pos_iff c q d).mpr hmatch

/-- Witness for C3: in a two-document corpus, the document containing the
query term appears in the output and the other does not. -/
theorem scoreAll_mem_iff_witness :
    ((1, score [(1, ["alpha"]), (2, ["beta"])] ["alpha"] (1, ["alpha"])) ∈
        scoreAll [(1, ["alpha"]), (2, ["beta"])] ["alpha"] ↔
      ∃ t ∈ ["alpha"], 0 < tf t (1, ["alpha"])) ∧
    ((2, score [(1, ["alpha"]), (2, ["beta"])] ["alpha"] (2, ["beta"])) ∈
        scoreAll [(1, ["alpha"]), (2, ["beta"])] ["alpha"] ↔
      ∃ t ∈ ["alpha"], 0 < tf t (2, ["beta"])) :=
  ⟨scoreAll_mem_iff [(1, ["alpha"]), (2, ["beta"])] ["alpha"] (1, ["alpha"]) (by simp),
   scoreAll_mem_iff [(1, ["alpha"]), (2, ["beta"])] ["alpha"] (2, ["beta"]) (by simp)⟩

/-! ## Reciprocal Rank Fusion

The hybrid route's combined CTE (part_004 lines 251-272) joins the vector
and keyword rankings with a FULL OUTER JOIN on document id and scores each
document as
`$3 * COALESCE(1.0 / (60 + v_rank), 0.0) + $4 * COALESCE(1.0 / (60 + k_rank), 0.0)`.
The general n-list combiner exists only in the specification (section 4.4);
it is modelled here and the SQL corresponds to its two-list instance with
k = 60. -/

/-- 1-based rank of document d in a ranked id list; none when absent. -/
def rankOf (l : List Nat) (d : Nat) : Option ℕ := (List.indexOf? d l).map (· + 1)

/-- Modelled from the spec: one ranked list's RRF contribution for a
document — weight / (k + rank) at its 1-based rank, and 0 when the
document is absent (the SQL's COALESCE(..., 0.0)). -/
noncomputable def contrib (w : ℝ) (k : ℝ) (l : List Nat) (d : Nat) : ℝ :=
  match rankOf l d with
  | some r => w / (k + (r : ℝ))
  | none => 0

/-- Modelled from the spec: the fused RRF score of a document — the sum of
the per-list contributions. -/
noncomputable def rrfScore (k : ℝ) (lists : List (ℝ × List Nat)) (d : Nat) : ℝ :=
  (lists.map (fun wl => contrib wl.1 k wl.2 d)).sum

/-- Modelled from the spec: the rank fusion combiner. The candidate set is
the union of the input lists (the SQL FULL OUTER JOIN); each document
receives its fused score; output ordered descending by score, ties by
ascending document id. -/
noncomputable def fuse (k : ℝ) (lists : List (ℝ × List Nat)) : List (Nat × ℝ) :=
  (((lists.map Prod.snd).flatten.dedup).map (fun d => (d, rrfScore k lists d))).mergeSort rankLE

theorem contrib_of_not_mem (w k : ℝ) (l : List Nat) (d : Nat) (hd : d ∉ l) :
    contrib w k l d = 0 := by
  have hnone : List.indexOf? d l = none := by
    rw [List.indexOf?_eq_none_iff]
    intro x hx
    simp only [beq_iff_eq]
    intro hxd
    exact hd (hxd ▸ hx)
  rw [contrib, rankOf, hnone]
  rfl

theorem indexOf?_eq_some_of_mem (l : List Nat) (d : Nat) (hd : d ∈ l) :
    List.indexOf? d l = some (List.indexOf d l) := by
  rcases h : List.indexOf? d l with _ | i
  · rw [List.indexOf?_eq_none_iff] at h
    exact absurd (by simp : (d == d) = true) (h d hd)
  · have := List.indexOf_eq_indexOf? d l
    rw [h] at this
    rw [this]

theorem contrib_of_mem (w k : ℝ) (l : List Nat) (d : Nat) (hd : d ∈ l) :
    contrib w k l d = w / (k + ((List.indexOf d l + 1 : ℕ) : ℝ)) := by
  rw [contrib, rankOf, indexOf?_eq_some_of_mem l d hd]
  rfl

/-- A document occurring in some input list appears in the fused output,
paired with its fused score. -/
theorem mem_fuse_of_mem_lists (k : ℝ) (lists : List (ℝ × List Nat)) (d : Nat)
    (hd : d ∈ (lists.map Prod.snd).flatten) :
    (d, rrfScore k lists d) ∈ fuse k lists := by
  rw [fuse, List.mem_mergeSort]
  exact List.mem_map_of_mem _ (List.mem_dedup.mpr hd)

/-- C2: every entry of the fused output carries as its score the sum, over
the input lists, of weight / (k + rank) at the document's 1-based rank in
that list, a list not containing the document contributing exactly 0. -/
theorem fuse_score_eq_weighted_sum (k : ℝ) (lists : List (ℝ × List Nat)) (p : Nat × ℝ)
    (hp : p ∈ fuse k lists) :
    p.2 = (lists.map (fun wl =>
      match List.indexOf? p.1 wl.2 with
      | some i => wl.1 / (k + ((i + 1 : ℕ) : ℝ))
      | none => 0)).sum := by
  rw [fuse, List.mem_mergeSort] at hp
  rcases List.mem_map.mp hp with ⟨d, -, rfl⟩
  dsimp only
  rw [rrfScore]
  congr 1
  apply List.map_congr_left
  intro wl _
  rcases h : List.indexOf? d wl.2 with _ | i
  · rw [contrib, rankOf, h]
    rfl
  · rw [contrib, rankOf, h]
    rfl

/-- Witness for C2 on two concrete weighted lists. -/
theorem fuse_score_eq_weighted_sum_witness :
    ((5 : Nat), rrfScore 60 [((1 : ℝ), [5]), ((2 : ℝ), [7, 5])] 5).2 =
      ([((1 : ℝ), [5]), ((2 : ℝ), [7, 5])].map (fun wl =>
        match List.indexOf? (((5 : Nat), rrfScore 60 [((1 : ℝ), [5]), ((2 : ℝ), [7, 5])] 5).1) wl.2 with
        | some i => wl.1 / ((60 : ℝ) + ((i + 1 : ℕ) : ℝ))
        | none => 0)).sum :=
  fuse_score_eq_weighted_sum 60 [((1 : ℝ), [5]), ((2 : ℝ), [7, 5])] _
    (mem_fuse_of_mem_lists 60 _ 5 (by simp))

/-- C5: a document appearing in list A but not in list B still appears in
the fused output of the two lists, with fused score equal to its sole
contribution from A. -/
theorem fuse_union_sole_contribution (k wA wB : ℝ) (A B : List Nat) (X : Nat)
    (hA : X ∈ A) (hB : X ∉ B) :
    (X, wA / (k + ((List.indexOf X A + 1 : ℕ) : ℝ))) ∈ fuse k [(wA, A), (wB, B)] := by
  have hscore : rrfScore k [(wA, A), (wB, B)] X =
      wA / (k + ((List.indexOf X A + 1 : ℕ) : ℝ)) := by
    rw [rrfScore]
    simp only [List.map_cons, List.map_nil, List.sum_cons, List.sum_nil, add_zero]
    rw [contrib_of_mem wA k A X hA, contrib_of_not_mem wB k B X hB, add_zero]
  have hmem : X ∈ ([(wA, A), (wB, B)].map Prod.snd).flatten := by
    simp only [List.map_cons, List.map_nil, List.flatten_cons, List.flatten_nil,
      List.append_nil, List.mem_append]
    exact Or.inl hA
  have := mem_fuse_of_mem_lists k [(wA, A), (wB, B)] X hmem
  rw [hscore] at this
  exact this

/-- Witness for C5: document 4 occurs in A = [9, 4] at rank 2 and not in
B = [7]; it appears in the fused output with its A-contribution. -/
theorem fuse_union_sole_contribution_witness :
    ((4 : Nat), (1 : ℝ) / ((60 : ℝ) + ((List.indexOf 4 [9, 4] + 1 : ℕ) : ℝ))) ∈
      fuse 60 [((1 : ℝ), [9, 4]), ((1 : ℝ), [7])] :=
  fuse_union_sole_contribution 60 1 1 [9, 4] [7] 4 (by decide) (by decide)

/-- C6: the ranked outputs of the batch scorer and of the fusion combiner
are sorted descending by score, and entries with exactly equal scores
appear in ascending order of document id. -/
theorem ranked_outputs_sorted (c : Corpus) (q : List String) (k : ℝ)
    (lists : List (ℝ × List Nat)) :
    (scoreAll c q).Pairwise (fun a r => r.2 < a.2 ∨ (a.2 = r.2 ∧ a.1 ≤ r.1)) ∧
    (fuse k lists).Pairwise (fun a r => r.2 < a.2 ∨ (a.2 = r.2 ∧ a.1 ≤ r.1)) := by
  constructor
  · rw [scoreAll]
    exact (List.sorted_mergeSort rankLE_trans rankLE_total _).imp
      (fun hab => (rankLE_iff _ _).mp hab)
  · rw [fuse]
    exact (List.sorted_mergeSort rankLE_trans rankLE_total _).imp
      (fun hab => (rankLE_iff _ _).mp hab)

/-! ## The tokenizer claims -/

/-- The routes' tokenizer, expressed through the executable per-character
splitter: the length filter removes exactly the empty pieces by which the
two splitting styles differ. -/
theorem tokenizeL_eq_splitOnP (s : List Char) :
    tokenizeL s = ((s.map Char.toLower).splitOnP (fun c => c.isWhitespace)).filter
      (fun t => 2 ≤ t.length) := by
  rw [tokenizeL, filter_length_splitOnP]

/-- The specification-worded tokenizer, expressed through the executable
per-character splitter. -/
theorem specTokenizeL_eq_splitOnP (s : List Char) :
    specTokenizeL s = ((s.map Char.toLower).splitOnP (fun c => !c.isAlphanum)).filter
      (fun t => 2 ≤ t.length) := by
  rw [specTokenizeL, filter_length_splitOnP]

/-- C4 counterexample: the routes split only on whitespace, not on runs of
non-alphanumeric characters — on "foo-bar" the route tokenizer returns the
single token "foo-bar" while the claimed splitting rule returns two
tokens. -/
theorem tokenize_hyphen_cx :
    tokenizeL ['f', 'o', 'o', '-', 'b', 'a', 'r'] = [['f', 'o', 'o', '-', 'b', 'a', 'r']] ∧
    specTokenizeL ['f', 'o', 'o', '-', 'b', 'a', 'r'] = [['f', 'o', 'o'], ['b', 'a', 'r']] ∧
    tokenizeL ['f', 'o', 'o', '-', 'b', 'a', 'r'] ≠
      specTokenizeL ['f', 'o', 'o', '-', 'b', 'a', 'r'] := by
  rw [tokenizeL_eq_splitOnP, specTokenizeL_eq_splitOnP]
  refine ⟨by decide, by decide, by decide⟩

/-- C4 (amended): the routes' tokenizer lowercases its input, splits it on
runs of whitespace, and discards the empty pieces and the tokens shorter
than two characters, preserving order; it is a pure function, so the same
input always yields the same output. Characterization: it keeps exactly
the length-two-or-longer pieces of cutting the lowercased input at every
whitespace character. -/
theorem tokenize_characterization (s : String) :
    tokenize s = (((s.data.map Char.toLower).splitOnP (fun c => c.isWhitespace)).filter
      (fun t => 2 ≤ t.length)).map List.asString := by
  rw [tokenize, tokenizeL_eq_splitOnP]

/-! ## The API routes -/

/-- The error the routes surface with HTTP status 400. -/
inductive SearchError
  | invalidArgument
deriving DecidableEq

/-- The JSON query field of a request body: absent, present with a
non-string value, or a string. -/
inductive QueryField
  | absent
  | nonString
  | str (s : String)

/-- The routes' request validation (part_004 lines 28-33, native route
lines 10-15): `if (!searchQuery || typeof searchQuery !== 'string')`
rejects a missing field, a non-string value, and the empty string (which
is falsy in JavaScript). -/
def validQuery : QueryField → Option String
  | .str s => if s = "" then none else some s
  | _ => none

/-- Modelled from the spec: the extension's BM25 distance operator, per
the route's documented semantics (part_004 lines 42-49): the negated BM25
score, negative exactly for matching documents. -/
noncomputable def bm25Distance (c : Corpus) (q : List String) (d : Doc) : ℝ :=
  -(score c q d)

/-- The bm25 route's WHERE clause on the distance (part_004 lines 51, 64,
76): distance < -scoreThreshold when a positive numeric threshold is
supplied, otherwise distance < 0. -/
noncomputable def bm25Keep (thr : Option ℝ) (dist : ℝ) : Bool :=
  match thr with
  | some t => if 0 < t then decide (dist < -t) else decide (dist < 0)
  | none => decide (dist < 0)

/-- The bm25 route's result rows (part_004 lines 36, 55-82): tokenize the
query, compute each document's BM25 distance, keep the rows passing the
WHERE clause, report score as -(distance), order by distance ascending
(score descending, ties by the specification's ascending-id rule), LIMIT
10. -/
noncomputable def bm25Run (c : Corpus) (rawQuery : String) (thr : Option ℝ) : List (Nat × ℝ) :=
  ((((c.map (fun d => (d.1, bm25Distance c (tokenize rawQuery) d))).filter
      (fun r => bm25Keep thr r.2)).map (fun r => (r.1, -r.2))).mergeSort rankLE).take 10

/-- The bm25 route handler: validation, then the query (part_004 lines
26-82). -/
noncomputable def bm25Route (c : Corpus) (f : QueryField) (thr : Option ℝ) :
    Except SearchError (List (Nat × ℝ)) :=
  match validQuery f with
  | none => .error .invalidArgument
  | some s => .ok (bm25Run c s thr)

/-- The hybrid route's weight resolution (part_004 lines 207-209):
`typeof body.vectorWeight === 'number' ? body.vectorWeight : 0.5`. -/
noncomputable def resolveWeight (w : Option ℝ) : ℝ := w.getD 0.5

/-- The hybrid route's rows for explicit weights (part_004 lines 227-272):
the combined CTE is the two-list RRF fusion with k = 60 of the vector and
keyword rankings; a positive numeric threshold t is rescaled to t / 1000
(line 228) and filters the fused rows (WHERE score >= $5), then LIMIT 10. -/
noncomputable def hybridRunW (v kw : List Nat) (vWeight kWeight : ℝ) (thr : Option ℝ) :
    List (Nat × ℝ) :=
  (match thr with
   | some t =>
     if 0 < t then
       (fuse 60 [(vWeight, v), (kWeight, kw)]).filter (fun r : Nat × ℝ => decide (t / 1000 ≤ r.2))
     else fuse 60 [(vWeight, v), (kWeight, kw)]
   | none => fuse 60 [(vWeight, v), (kWeight, kw)]).take 10

/-- The hybrid route's rows with the caller's optional weights resolved
(part_004 lines 207-209). -/
noncomputable def hybridRun (v kw : List Nat) (vWeight kWeight : Option ℝ) (thr : Option ℝ) :
    List (Nat × ℝ) :=
  hybridRunW v kw (resolveWeight vWeight) (resolveWeight kWeight) thr

/-- C8: when no numeric weight is supplied the hybrid fusion runs with the
defaults 0.5 and 0.5; supplied numeric weights — including 0 — are used
exactly. -/
theorem hybrid_weight_defaults :
    (∀ v kw thr, hybridRun v kw none none thr = hybridRunW v kw 0.5 0.5 thr) ∧
    (∀ v kw thr (x y : ℝ), hybridRun v kw (some x) (some y) thr = hybridRunW v kw x y thr) ∧
    (∀ v kw thr, hybridRun v kw (some 0) (some 0) thr = hybridRunW v kw 0 0 thr) :=
  ⟨fun _ _ _ => rfl, fun _ _ _ _ _ => rfl, fun _ _ _ => rfl⟩

/-! Concrete single-document corpus used by several witnesses. -/

/-- A one-document corpus: document 1 with indexed terms "hello world". -/
def helloCorpus : Corpus := [(1, ["hello", "world"])]

/-- The BM25 score of the hello document for the query term "hello". -/
noncomputable def helloScore : ℝ := score helloCorpus ["hello"] (1, ["hello", "world"])

theorem helloScore_pos : 0 < helloScore :=
  (score_pos_iff helloCorpus ["hello"] (1, ["hello", "world"])).mpr
    ⟨"hello", by decide, by decide⟩

theorem hello_tokenize : tokenize "hello" = ["hello"] := by
  rw [tokenize, tokenizeL_eq_splitOnP]
  decide

theorem zz_tokenize : tokenize "zz" = ["zz"] := by
  rw [tokenize, tokenizeL_eq_splitOnP]
  decide

theorem bm25Keep_none (x : ℝ) : bm25Keep none x = decide (x < 0) := rfl

theorem bm25Keep_some (t x : ℝ) :
    bm25Keep (some t) x = if 0 < t then decide (x < -t) else decide (x < 0) := rfl

theorem hello_run : bm25Run helloCorpus "hello" none = [(1, helloScore)] := by
  have hkeep : bm25Keep none (bm25Distance helloCorpus ["hello"] (1, ["hello", "world"])) =
      true := by
    rw [bm25Keep_none]
    exact decide_eq_true (neg_lt_zero.mpr helloScore_pos)
  have hmap : (helloCorpus.map (fun d => (d.1, bm25Distance helloCorpus ["hello"] d))) =
      [(1, bm25Distance helloCorpus ["hello"] (1, ["hello", "world"]))] := rfl
  rw [bm25Run, hello_tokenize, hmap, List.filter_cons, hkeep]
  simp only [if_true, List.filter_nil, List.map_cons, List.map_nil, List.mergeSort_singleton]
  rw [bm25Distance, neg_neg]
  rfl

theorem bm25Keep_neg (thr : Option ℝ) (x : ℝ) (h : bm25Keep thr x = true) : x < 0 := by
  rcases thr with _ | t
  · rw [bm25Keep_none] at h
    exact of_decide_eq_true h
  · rw [bm25Keep_some] at h
    by_cases ht : 0 < t
    · rw [if_pos ht] at h
      have h2 := of_decide_eq_true h
      linarith
    · rw [if_neg ht] at h
      exact of_decide_eq_true h

/-- C10: every row returned by the bm25 route has a strictly positive
reported score; only documents whose raw BM25 distance is negative are
selected, and each reported score is the negation of that distance. -/
theorem bm25_route_scores_positive (c : Corpus) (rawQ : String) (thr : Option ℝ)
    (r : Nat × ℝ) (hr : r ∈ bm25Run c rawQ thr) :
    0 < r.2 ∧ ∃ d ∈ c, bm25Distance c (tokenize rawQ) d < 0 ∧
      r = (d.1, -(bm25Distance c (tokenize rawQ) d)) := by
  rw [bm25Run] at hr
  have hr1 := List.mem_mergeSort.mp (List.mem_of_mem_take hr)
  rcases List.mem_map.mp hr1 with ⟨r0, hr0, rfl⟩
  rcases List.mem_filter.mp hr0 with ⟨hr0m, hr0k⟩
  rcases List.mem_map.mp hr0m with ⟨d, hd, rfl⟩
  have hneg : bm25Distance c (tokenize rawQ) d < 0 := bm25Keep_neg thr _ hr0k
  exact ⟨by simpa using neg_pos.mpr hneg, d, hd, hneg, rfl⟩

/-- Witness for C10 on the hello corpus. -/
theorem bm25_route_scores_positive_witness :
    0 < ((1 : Nat), helloScore).2 ∧ ∃ d ∈ helloCorpus,
      bm25Distance helloCorpus (tokenize "hello") d < 0 ∧
      ((1 : Nat), helloScore) = (d.1, -(bm25Distance helloCorpus (tokenize "hello") d)) :=
  bm25_route_scores_positive helloCorpus "hello" none (1, helloScore)
    (by rw [hello_run]; exact List.mem_cons_self _ _)

theorem bm25Keep_zero (thr : Option ℝ) : bm25Keep thr 0 = false := by
  rcases thr with _ | t
  · rw [bm25Keep_none]
    simp
  · rw [bm25Keep_some]
    by_cases ht : 0 < t
    · rw [if_pos ht]
      simp only [decide_eq_false_iff_not, not_lt]
      linarith
    · rw [if_neg ht]
      simp

/-- C9: a request whose query text is empty or not a string fails with
InvalidArgument and produces no results, while a well-formed query
matching no documents yields a valid empty result, never an error. -/
theorem route_validation_and_empty (c : Corpus) (thr : Option ℝ) :
    (∀ f, validQuery f = none → bm25Route c f thr = .error .invalidArgument) ∧
    (∀ s, validQuery (.str s) = some s →
      (∀ d ∈ c, ∀ t ∈ tokenize s, tf t d = 0) →
      bm25Route c (.str s) thr = .ok []) := by
  constructor
  · intro f hf
    rw [bm25Route, hf]
  · intro s hs hno
    rw [bm25Route, hs]
    show Except.ok (bm25Run c s thr) = Except.ok []
    have hrun : bm25Run c s thr = [] := by
      rw [bm25Run]
      have hfilter : (c.map (fun d => (d.1, bm25Distance c (tokenize s) d))).filter
          (fun r => bm25Keep thr r.2) = [] := by
        rw [List.filter_eq_nil_iff]
        intro r hrm
        rcases List.mem_map.mp hrm with ⟨d, hd, rfl⟩
        have hscore : score c (tokenize s) d = 0 := by
          rw [score]
          apply List.sum_eq_zero
          intro x hx
          rcases List.mem_map.mp hx with ⟨t, ht, rfl⟩
          exact termScore_eq_zero c t d (hno d hd t ht)
        have hdist : bm25Distance c (tokenize s) d = 0 := by
          rw [bm25Distance, hscore, neg_zero]
        simp only [hdist, bm25Keep_zero, Bool.false_eq_true, not_false_eq_true]
      rw [hfilter]
      simp
    rw [hrun]

/-- Witness for C9: empty query rejected; query "zz" against a corpus not
containing it yields the empty result. -/
theorem route_validation_and_empty_witness :
    bm25Route helloCorpus (QueryField.str "") none = .error .invalidArgument ∧
    bm25Route helloCorpus (QueryField.str "zz") none = .ok [] :=
  ⟨(route_validation_and_empty helloCorpus none).1 (QueryField.str "") (by rfl),
   (route_validation_and_empty helloCorpus none).2 "zz" (by rfl)
     (by
       intro d hd t ht
       rw [zz_tokenize] at ht
       rcases List.mem_singleton.mp ht with rfl
       rcases List.mem_singleton.mp hd with rfl
       decide)⟩

/-! ## Threshold filtering (claim C7)

The SQL applies the threshold in the WHERE clause, before ORDER BY and
LIMIT; relating that to a post-hoc filter of the unthresholded run
requires commuting the filter with the sort and the LIMIT, which holds
because the kept predicate is upward-closed along the sort order. -/

theorem mergeSort_pairwise (l : List (Nat × ℝ)) :
    (l.mergeSort rankLE).Pairwise (fun a r => rankLE a r = true) :=
  List.sorted_mergeSort rankLE_trans rankLE_total l

theorem rankLE_snd_le (a r : Nat × ℝ) (h : rankLE a r = true) : r.2 ≤ a.2 := by
  rcases (rankLE_iff a r).mp h with h1 | ⟨h1, -⟩
  · exact le_of_lt h1
  · exact le_of_eq h1.symm

theorem map_filter_swap {α β : Type} (f : α → β) (p : α → Bool) (q : β → Bool)
    (h : ∀ x, p x = q (f x)) (l : List α) :
    (l.filter p).map f = (l.map f).filter q := by
  induction l with
  | nil => rfl
  | cons a l ih =>
    rw [List.filter_cons, List.map_cons, List.filter_cons, ← h a]
    by_cases hpa : p a = true
    · rw [if_pos hpa, if_pos hpa, List.map_cons, ih]
    · rw [if_neg hpa, if_neg hpa, ih]

theorem filter_mergeSort_comm (p : Nat × ℝ → Bool) (l : List (Nat × ℝ)) :
    (l.filter p).mergeSort rankLE = (l.mergeSort rankLE).filter p := by
  have hperm : ((l.filter p).mergeSort rankLE).Perm ((l.mergeSort rankLE).filter p) :=
    (List.mergeSort_perm (l.filter p) rankLE).trans
      ((List.mergeSort_perm l rankLE).filter p).symm
  have hs1 : List.Sorted rankRel ((l.filter p).mergeSort rankLE) := mergeSort_pairwise _
  have hs2 : List.Sorted rankRel ((l.mergeSort rankLE).filter p) :=
    (mergeSort_pairwise l).filter p
  exact List.eq_of_perm_of_sorted hperm hs1 hs2

theorem sorted_filter_eq_takeWhile (p : Nat × ℝ → Bool)
    (hp : ∀ a r, rankLE a r = true → p r = true → p a = true)
    (L : List (Nat × ℝ)) (hL : L.Pairwise (fun a r => rankLE a r = true)) :
    L.filter p = L.takeWhile p := by
  induction L with
  | nil => rfl
  | cons a l ih =>
    rcases List.pairwise_cons.mp hL with ⟨ha, hl⟩
    rw [List.filter_cons, List.takeWhile_cons]
    by_cases hpa : p a = true
    · rw [if_pos hpa, if_pos hpa, ih hl]
    · rw [if_neg hpa, if_neg hpa, List.filter_eq_nil_iff]
      intro x hx hpx
      exact hpa (hp a x (ha x hx) hpx)

theorem takeWhile_take_comm {α : Type} (p : α → Bool) (l : List α) (n : ℕ) :
    (l.takeWhile p).take n = (l.take n).takeWhile p := by
  induction l generalizing n with
  | nil => simp
  | cons a l ih =>
    cases n with
    | zero => simp
    | succ n =>
      rw [List.takeWhile_cons]
      by_cases hpa : p a = true
      · rw [if_pos hpa, List.take_succ_cons, List.take_succ_cons, List.takeWhile_cons,
          if_pos hpa, ih]
      · rw [if_neg hpa, List.take_succ_cons, List.takeWhile_cons, if_neg hpa]
        simp

theorem take_filter_sorted (p : Nat × ℝ → Bool)
    (hp : ∀ a r, rankLE a r = true → p r = true → p a = true)
    (L : List (Nat × ℝ)) (hL : L.Pairwise (fun a r => rankLE a r = true)) (n : ℕ) :
    (L.filter p).take n = (L.take n).filter p := by
  rw [sorted_filter_eq_takeWhile p hp L hL, takeWhile_take_comm,
    ← sorted_filter_eq_takeWhile p hp (L.take n)
      (List.Pairwise.sublist (List.take_sublist n L) hL)]

/-- C7 counterexample: with the threshold set to the exact score of the
sole matching document, the bm25 route drops the document (its WHERE
clause is strict), whereas removing only the entries scoring strictly
below the threshold — as the claim states — would keep it. -/
theorem threshold_strict_cx :
    bm25Run helloCorpus "hello" (some helloScore) ≠
      (bm25Run helloCorpus "hello" none).filter (fun r => decide (helloScore ≤ r.2)) := by
  have hkeepf : bm25Keep (some helloScore)
      (bm25Distance helloCorpus ["hello"] (1, ["hello", "world"])) = false := by
    rw [bm25Keep_some, if_pos helloScore_pos]
    exact decide_eq_false (lt_irrefl _)
  have hmap : (helloCorpus.map (fun d => (d.1, bm25Distance helloCorpus ["hello"] d))) =
      [(1, bm25Distance helloCorpus ["hello"] (1, ["hello", "world"]))] := rfl
  have hL : bm25Run helloCorpus "hello" (some helloScore) = [] := by
    rw [bm25Run, hello_tokenize, hmap, List.filter_cons, hkeepf]
    simp
  have hR : (bm25Run helloCorpus "hello" none).filter (fun r => decide (helloScore ≤ r.2)) =
      [(1, helloScore)] := by
    rw [hello_run, List.filter_cons, decide_eq_true (le_refl helloScore)]
    simp
  rw [hL, hR]
  simp

/-- C7 (amended): a thresholded run equals the unthresholded run filtered
post-scoring, with the surviving scores unchanged; the bm25 route keeps
exactly the rows whose score strictly exceeds the threshold, and the
hybrid route rescales the caller's threshold t to t / 1000 and keeps the
rows scoring at least t / 1000. -/
theorem threshold_post_filter (t : ℝ) (ht : 0 < t) :
    (∀ c rawQ, bm25Run c rawQ (some t) =
      (bm25Run c rawQ none).filter (fun r => decide (t < r.2))) ∧
    (∀ v kw wv wk, hybridRunW v kw wv wk (some t) =
      (hybridRunW v kw wv wk none).filter (fun r => decide (t / 1000 ≤ r.2))) := by
  constructor
  · intro c rawQ
    simp only [bm25Run]
    have h1 : (c.map (fun d => (d.1, bm25Distance c (tokenize rawQ) d))).filter
        (fun r => bm25Keep (some t) r.2) =
        (c.map (fun d => (d.1, bm25Distance c (tokenize rawQ) d))).filter
          (fun r => decide (r.2 < -t)) :=
      List.filter_congr (fun x _ => by rw [bm25Keep_some, if_pos ht])
    have h0 : (c.map (fun d => (d.1, bm25Distance c (tokenize rawQ) d))).filter
        (fun r => bm25Keep none r.2) =
        (c.map (fun d => (d.1, bm25Distance c (tokenize rawQ) d))).filter
          (fun r => decide (r.2 < 0)) :=
      List.filter_congr (fun x _ => by rw [bm25Keep_none])
    rw [h1, h0]
    rw [map_filter_swap (fun r : Nat × ℝ => (r.1, -r.2)) _ (fun r => decide (t < r.2))
      (fun x => decide_eq_decide.mpr (by dsimp only; constructor <;> intro h <;> linarith)) _]
    rw [map_filter_swap (fun r : Nat × ℝ => (r.1, -r.2)) _ (fun r => decide ((0 : ℝ) < r.2))
      (fun x => decide_eq_decide.mpr (by dsimp only; constructor <;> intro h <;> linarith)) _]
    have habs : ((c.map (fun d => (d.1, bm25Distance c (tokenize rawQ) d))).map
        (fun r : Nat × ℝ => (r.1, -r.2))).filter (fun r => decide (t < r.2)) =
        (((c.map (fun d => (d.1, bm25Distance c (tokenize rawQ) d))).map
          (fun r : Nat × ℝ => (r.1, -r.2))).filter (fun r => decide ((0 : ℝ) < r.2))).filter
            (fun r => decide (t < r.2)) := by
      rw [List.filter_filter]
      apply List.filter_congr
      intro x _
      by_cases hx : t < x.2
      · simp [hx, lt_trans ht hx]
      · simp [hx]
    rw [habs, filter_mergeSort_comm]
    rw [take_filter_sorted _ (fun a r hle hr =>
        decide_eq_true (lt_of_lt_of_le (of_decide_eq_true hr) (rankLE_snd_le a r hle)))
      _ (mergeSort_pairwise _) 10]
  · intro v kw wv wk
    simp only [hybridRunW]
    rw [if_pos ht]
    rw [take_filter_sorted _ (fun a r hle hr =>
        decide_eq_true (le_trans (of_decide_eq_true hr) (rankLE_snd_le a r hle)))
      _ (by rw [fuse]; exact mergeSort_pairwise _) 10]

/-- Witness for C7 at threshold 1. -/
theorem threshold_post_filter_witness :
    (bm25Run helloCorpus "hello" (some 1) =
      (bm25Run helloCorpus "hello" none).filter (fun r => decide ((1 : ℝ) < r.2))) ∧
    (hybridRunW [3] [5] 1 1 (some 1) =
      (hybridRunW [3] [5] 1 1 none).filter (fun r => decide ((1 : ℝ) / 1000 ≤ r.2))) :=
  ⟨(threshold_post_filter 1 one_pos).1 helloCorpus "hello",
   (threshold_post_filter 1 one_pos).2 [3] [5] 1 1⟩

end PgDemo
